import Mathlib

/-!
Verification of the grid-index and grid-traversal core of the
`advent-2024-rust` repository.

The definitions below are a shallow embedding of the Rust source:

* `Direction`, `DIRECTIONS`, `Direction.clock`, `Direction.counterclock`,
  `TileIndex` with `right`, `left`, `up`, `down`, `dir_to`
  — from `src/lib.rs`;
* `FieldMap` with `directional_neighbors`, `neighbors`, `dfs`
  — from `src/bin/day10.rs`;
* `Grid` with `step_count` — from `src/bin/day18.rs`.

Rust `usize` arithmetic is modelled with `Nat`; every subtraction that the
Rust code performs is guarded by the surrounding `if`, and the theorems
below prove that under the documented preconditions no truncation occurs.
Out-of-range `Vec` indexing panics in Rust; in the embedding such accesses
use a default (`List.getD`) chosen so that an out-of-range index is inert
(treated as already visited / as an obstacle); the correctness theorems are
stated under the validity preconditions, where no out-of-range access
happens and the defaults are never consulted.
-/

/-- The four compass directions, from `enum Direction` in `src/lib.rs`. -/
inductive Direction : Type where
  | left
  | right
  | up
  | down
deriving DecidableEq, Repr

/-- The constant `DIRECTIONS` array from `src/lib.rs`. -/
def DIRECTIONS : List Direction :=
  [Direction.left, Direction.right, Direction.up, Direction.down]

/-- `Direction::clock` from `src/lib.rs`. -/
def Direction.clock : Direction → Direction
  | Direction.up => Direction.right
  | Direction.right => Direction.down
  | Direction.down => Direction.left
  | Direction.left => Direction.up

/-- `Direction::counterclock` from `src/lib.rs`. -/
def Direction.counterclock : Direction → Direction
  | Direction.up => Direction.left
  | Direction.right => Direction.up
  | Direction.down => Direction.right
  | Direction.left => Direction.down

/-- `struct TileIndex` from `src/lib.rs`: the dimensions of a grid. -/
structure TileIndex : Type where
  width : Nat
  height : Nat
deriving DecidableEq, Repr

namespace TileIndex

/-- `TileIndex::right` from `src/lib.rs`. -/
def right (t : TileIndex) (index : Nat) : Option Nat :=
  if index % t.width + 1 < t.width ∧ index + 1 < t.width * t.height then
    some (index + 1)
  else
    none

/-- `TileIndex::left` from `src/lib.rs`. -/
def left (t : TileIndex) (index : Nat) : Option Nat :=
  if index % t.width > 0 ∧ index ≠ 0 then
    some (index - 1)
  else
    none

/-- `TileIndex::up` from `src/lib.rs`. -/
def up (t : TileIndex) (index : Nat) : Option Nat :=
  if index / t.width > 0 then
    some (index - t.width)
  else
    none

/-- `TileIndex::down` from `src/lib.rs`. -/
def down (t : TileIndex) (index : Nat) : Option Nat :=
  if index / t.width < t.height - 1 then
    some (index + t.width)
  else
    none

/-- `TileIndex::dir_to` from `src/lib.rs`: dispatch on the direction. -/
def dir_to (t : TileIndex) (index : Nat) (dir : Direction) : Option Nat :=
  match dir with
  | Direction.left => t.left index
  | Direction.right => t.right index
  | Direction.up => t.up index
  | Direction.down => t.down index

end TileIndex

namespace TileIndex

/-- Inversion for `right`: the conditions of the `if` and the returned value. -/
theorem right_eq_some {t : TileIndex} {i j : Nat} (h : t.right i = some j) :
    i % t.width + 1 < t.width ∧ i + 1 < t.width * t.height ∧ j = i + 1 := by
  unfold right at h
  split at h
  · rename_i hc
    exact ⟨hc.1, hc.2, (Option.some.inj h).symm⟩
  · exact absurd h (by simp)

/-- Inversion for `left`. -/
theorem left_eq_some {t : TileIndex} {i j : Nat} (h : t.left i = some j) :
    i % t.width > 0 ∧ i ≠ 0 ∧ j = i - 1 := by
  unfold left at h
  split at h
  · rename_i hc
    exact ⟨hc.1, hc.2, (Option.some.inj h).symm⟩
  · exact absurd h (by simp)

/-- Inversion for `up`. -/
theorem up_eq_some {t : TileIndex} {i j : Nat} (h : t.up i = some j) :
    i / t.width > 0 ∧ j = i - t.width := by
  unfold up at h
  split at h
  · rename_i hc
    exact ⟨hc, (Option.some.inj h).symm⟩
  · exact absurd h (by simp)

/-- Inversion for `down`. -/
theorem down_eq_some {t : TileIndex} {i j : Nat} (h : t.down i = some j) :
    i / t.width < t.height - 1 ∧ j = i + t.width := by
  unfold down at h
  split at h
  · rename_i hc
    exact ⟨hc, (Option.some.inj h).symm⟩
  · exact absurd h (by simp)

end TileIndex

/-- Row and column of the successor index inside a row: if the current cell is
not in the last column, adding one keeps the row and bumps the column. -/
theorem succ_mod_div {w i : Nat} (h : i % w + 1 < w) :
    (i + 1) % w = i % w + 1 ∧ (i + 1) / w = i / w := by
  have hw : 0 < w := by omega
  have e : i + 1 = (i % w + 1) + w * (i / w) := by
    have := Nat.mod_add_div i w
    omega
  constructor
  · rw [e, Nat.add_mul_mod_self_left, Nat.mod_eq_of_lt h]
  · rw [e, Nat.add_mul_div_left _ _ hw, Nat.div_eq_of_lt h, Nat.zero_add]

/-- Row and column of the predecessor index inside a row: if the current cell is
not in the first column, subtracting one keeps the row and drops the column. -/
theorem pred_mod_div {w i : Nat} (hw : 0 < w) (h : 0 < i % w) :
    (i - 1) % w = i % w - 1 ∧ (i - 1) / w = i / w := by
  have hlt : i % w < w := Nat.mod_lt _ hw
  have e : i - 1 = (i % w - 1) + w * (i / w) := by
    have := Nat.mod_add_div i w
    omega
  constructor
  · rw [e, Nat.add_mul_mod_self_left, Nat.mod_eq_of_lt (by omega)]
  · rw [e, Nat.add_mul_div_left _ _ hw, Nat.div_eq_of_lt (by omega), Nat.zero_add]

/-- A positive `Nat` quotient forces the dividend to be at least the divisor. -/
theorem le_of_div_pos {w i : Nat} (h : 0 < i / w) : w ≤ i := by
  by_contra hlt
  rw [Nat.div_eq_of_lt (by omega)] at h
  exact absurd h (by omega)

/-- C1: for every grid with positive dimensions and every valid linear index
`i`, `right i` is `some (i+1)` exactly when `i` is not in the last column and
not the very last cell; `left i` is `some (i-1)` exactly when `i % width ≠ 0`;
`up i` is `some (i - width)` exactly when `width ≤ i`; `down i` is
`some (i + width)` exactly when `i / width ≠ height - 1`; and `dir_to` returns
exactly the matching one of the four functions. -/
theorem claim_C1 (t : TileIndex) (hw : 0 < t.width) (hh : 0 < t.height)
    (i : Nat) (hi : i < t.width * t.height) :
    (t.right i =
      if i % t.width ≠ t.width - 1 ∧ i ≠ t.width * t.height - 1
      then some (i + 1) else none)
    ∧ (t.left i = if i % t.width ≠ 0 then some (i - 1) else none)
    ∧ (t.up i = if t.width ≤ i then some (i - t.width) else none)
    ∧ (t.down i =
      if i / t.width ≠ t.height - 1 then some (i + t.width) else none)
    ∧ (∀ d : Direction, t.dir_to i d =
        match d with
        | Direction.left => t.left i
        | Direction.right => t.right i
        | Direction.up => t.up i
        | Direction.down => t.down i) := by
  have hmod : i % t.width < t.width := Nat.mod_lt _ hw
  have hdiv : i / t.width < t.height := by
    rw [Nat.div_lt_iff_lt_mul hw, Nat.mul_comm]
    exact hi
  refine ⟨?_, ?_, ?_, ?_, ?_⟩
  · unfold TileIndex.right
    apply if_congr _ rfl rfl
    clear hdiv
    constructor
    · rintro ⟨h1, h2⟩
      omega
    · rintro ⟨h1, h2⟩
      omega
  · unfold TileIndex.left
    apply if_congr _ rfl rfl
    clear hdiv
    constructor
    · rintro ⟨h1, h2⟩
      omega
    · intro h1
      constructor
      · omega
      · intro h0
        rw [h0] at h1
        exact h1 (Nat.zero_mod _)
  · unfold TileIndex.up
    apply if_congr _ rfl rfl
    constructor
    · exact fun h => le_of_div_pos h
    · intro h
      exact Nat.div_pos h hw
  · unfold TileIndex.down
    apply if_congr _ rfl rfl
    generalize i / t.width = q at hdiv ⊢
    omega
  · intro d
    cases d <;> rfl

/-- Witness for C1 at the concrete grid 3 × 2 and index 4. -/
theorem claim_C1_witness :
    (0 < 3 ∧ 0 < 2 ∧ 4 < 3 * 2)
    ∧ ((TileIndex.mk 3 2).right 4 =
        if 4 % 3 ≠ 3 - 1 ∧ 4 ≠ 3 * 2 - 1 then some (4 + 1) else none)
    ∧ ((TileIndex.mk 3 2).left 4 = if 4 % 3 ≠ 0 then some (4 - 1) else none)
    ∧ ((TileIndex.mk 3 2).up 4 = if 3 ≤ 4 then some (4 - 3) else none)
    ∧ ((TileIndex.mk 3 2).down 4 =
        if 4 / 3 ≠ 2 - 1 then some (4 + 3) else none)
    ∧ (∀ d : Direction, (TileIndex.mk 3 2).dir_to 4 d =
        match d with
        | Direction.left => (TileIndex.mk 3 2).left 4
        | Direction.right => (TileIndex.mk 3 2).right 4
        | Direction.up => (TileIndex.mk 3 2).up 4
        | Direction.down => (TileIndex.mk 3 2).down 4) := by
  refine ⟨by decide, ?_⟩
  exact claim_C1 (TileIndex.mk 3 2) (by decide) (by decide) 4 (by decide)

/-- C5: clockwise rotation has period four on every direction, and
counterclockwise rotation is its exact two-sided inverse. -/
theorem claim_C5 :
    ∀ d : Direction,
      d.clock.clock.clock.clock = d
      ∧ d.counterclock.clock = d
      ∧ d.clock.counterclock = d := by
  intro d
  cases d <;> exact ⟨rfl, rfl, rfl⟩

/-- C4: stepping right then left (when both succeed) returns to the starting
index, and likewise stepping down then up. -/
theorem claim_C4 (t : TileIndex) (_hw : 0 < t.width) (_hh : 0 < t.height)
    (i : Nat) (_hi : i < t.width * t.height) :
    (∀ j r, t.right i = some j → t.left j = some r → r = i)
    ∧ (∀ j r, t.down i = some j → t.up j = some r → r = i) := by
  constructor
  · intro j r hr hl
    obtain ⟨-, -, hj⟩ := TileIndex.right_eq_some hr
    obtain ⟨-, -, hrr⟩ := TileIndex.left_eq_some hl
    omega
  · intro j r hd hu
    obtain ⟨-, hj⟩ := TileIndex.down_eq_some hd
    obtain ⟨-, hrr⟩ := TileIndex.up_eq_some hu
    omega

/-- Witness for C4 at the concrete grid 2 × 2 and index 0. -/
theorem claim_C4_witness :
    (0 < 2 ∧ 0 < 2 ∧ 0 < 2 * 2)
    ∧ ((TileIndex.mk 2 2).right 0 = some 1 → (TileIndex.mk 2 2).left 1 = some 0)
    ∧ ((TileIndex.mk 2 2).down 0 = some 2 → (TileIndex.mk 2 2).up 2 = some 0) := by
  have h := claim_C4 (TileIndex.mk 2 2) (by decide) (by decide) 0 (by decide)
  refine ⟨by decide, ?_, ?_⟩
  · intro hr
    have := h.1 1 0 hr (by decide)
    decide
  · intro hd
    have := h.2 2 0 hd (by decide)
    decide

/-- C7: on a 1 × 1 grid every neighbor lookup at index 0 is `none`; on any
single-row grid `up` and `down` are `none` at every valid index; on any
single-column grid `left` and `right` are `none` at every valid index. -/
theorem claim_C7 :
    ((TileIndex.mk 1 1).left 0 = none
      ∧ (TileIndex.mk 1 1).right 0 = none
      ∧ (TileIndex.mk 1 1).up 0 = none
      ∧ (TileIndex.mk 1 1).down 0 = none)
    ∧ (∀ w i : Nat, 0 < w → i < w * 1 →
        (TileIndex.mk w 1).up i = none ∧ (TileIndex.mk w 1).down i = none)
    ∧ (∀ h i : Nat, 0 < h → i < 1 * h →
        (TileIndex.mk 1 h).left i = none ∧ (TileIndex.mk 1 h).right i = none) := by
  refine ⟨by decide, ?_, ?_⟩
  · intro w i hw hi
    have hiw : i < w := by omega
    constructor
    · show (if i / w > 0 then some (i - w) else none) = none
      rw [Nat.div_eq_of_lt hiw]
      simp
    · show (if i / w < 1 - 1 then some (i + w) else none) = none
      simp
  · intro h i hh hi
    constructor
    · show (if i % 1 > 0 ∧ i ≠ 0 then some (i - 1) else none) = none
      rw [Nat.mod_one]
      simp
    · show (if i % 1 + 1 < 1 ∧ i + 1 < 1 * h then some (i + 1) else none) = none
      rw [Nat.mod_one]
      simp

/-- Witness for C7 on a 4 × 1 single-row grid at index 2 and a 1 × 4
single-column grid at index 3. -/
theorem claim_C7_witness :
    (0 < 4 ∧ 2 < 4 * 1 ∧ 3 < 1 * 4)
    ∧ ((TileIndex.mk 4 1).up 2 = none ∧ (TileIndex.mk 4 1).down 2 = none)
    ∧ ((TileIndex.mk 1 4).left 3 = none ∧ (TileIndex.mk 1 4).right 3 = none) :=
  ⟨by decide, claim_C7.2.1 4 2 (by decide) (by decide),
    claim_C7.2.2 4 3 (by decide) (by decide)⟩

/-- C10: under the validity precondition every successful neighbor lookup
performs no underflowing subtraction (the subtracted amount is bounded by the
index, and `height - 1` does not underflow), and the returned index is again a
valid index lying in the same row one column away (for `left`/`right`) or in
the same column one row away (for `up`/`down`); `dir_to` therefore only ever
returns valid indices. -/
theorem claim_C10 (t : TileIndex) (hw : 0 < t.width) (hh : 0 < t.height)
    (i : Nat) (hi : i < t.width * t.height) :
    (∀ j, t.left i = some j →
      1 ≤ i ∧ j = i - 1 ∧ j < t.width * t.height
        ∧ j / t.width = i / t.width ∧ j % t.width + 1 = i % t.width)
    ∧ (∀ j, t.right i = some j →
      j = i + 1 ∧ j < t.width * t.height
        ∧ j / t.width = i / t.width ∧ j % t.width = i % t.width + 1)
    ∧ (∀ j, t.up i = some j →
      t.width ≤ i ∧ j = i - t.width ∧ j < t.width * t.height
        ∧ j / t.width + 1 = i / t.width ∧ j % t.width = i % t.width)
    ∧ (∀ j, t.down i = some j →
      j = i + t.width ∧ j < t.width * t.height
        ∧ j / t.width = i / t.width + 1 ∧ j % t.width = i % t.width)
    ∧ (t.height - 1) + 1 = t.height
    ∧ (∀ d j, t.dir_to i d = some j → j < t.width * t.height) := by
  have hmod : i % t.width < t.width := Nat.mod_lt _ hw
  have hleft : ∀ j, t.left i = some j →
      1 ≤ i ∧ j = i - 1 ∧ j < t.width * t.height
        ∧ j / t.width = i / t.width ∧ j % t.width + 1 = i % t.width := by
    intro j h
    obtain ⟨h1, h2, hj⟩ := TileIndex.left_eq_some h
    obtain ⟨hm, hd⟩ := pred_mod_div hw h1
    refine ⟨by omega, hj, by omega, ?_, ?_⟩
    · rw [hj, hd]
    · rw [hj, hm]
      omega
  have hright : ∀ j, t.right i = some j →
      j = i + 1 ∧ j < t.width * t.height
        ∧ j / t.width = i / t.width ∧ j % t.width = i % t.width + 1 := by
    intro j h
    obtain ⟨h1, h2, hj⟩ := TileIndex.right_eq_some h
    obtain ⟨hm, hd⟩ := succ_mod_div h1
    exact ⟨hj, by omega, by rw [hj, hd], by rw [hj, hm]⟩
  have hup : ∀ j, t.up i = some j →
      t.width ≤ i ∧ j = i - t.width ∧ j < t.width * t.height
        ∧ j / t.width + 1 = i / t.width ∧ j % t.width = i % t.width := by
    intro j h
    obtain ⟨h1, hj⟩ := TileIndex.up_eq_some h
    have hwi : t.width ≤ i := le_of_div_pos h1
    have hij : i = j + t.width := by omega
    refine ⟨hwi, hj, by omega, ?_, ?_⟩
    · rw [hij, Nat.add_div_right _ hw]
    · rw [hij, Nat.add_mod_right]
  have hdown : ∀ j, t.down i = some j →
      j = i + t.width ∧ j < t.width * t.height
        ∧ j / t.width = i / t.width + 1 ∧ j % t.width = i % t.width := by
    intro j h
    obtain ⟨h1, hj⟩ := TileIndex.down_eq_some h
    have hjd : j / t.width = i / t.width + 1 := by
      rw [hj, Nat.add_div_right _ hw]
    have hjlt : j < t.width * t.height := by
      have : j / t.width < t.height := by omega
      rw [Nat.div_lt_iff_lt_mul hw] at this
      rw [Nat.mul_comm] at this
      exact this
    exact ⟨hj, hjlt, by omega, by rw [hj, Nat.add_mod_right]⟩
  refine ⟨hleft, hright, hup, hdown, by omega, ?_⟩
  intro d j h
  cases d with
  | left => exact (hleft j h).2.2.1
  | right => exact (hright j h).2.1
  | up => exact (hup j h).2.2.1
  | down => exact (hdown j h).2.1

/-- Witness for C10 at the concrete grid 3 × 2, index 4, and its left
neighbor 3. -/
theorem claim_C10_witness :
    (0 < 3 ∧ 0 < 2 ∧ 4 < 3 * 2)
    ∧ (1 ≤ 4 ∧ 3 = 4 - 1 ∧ 3 < 3 * 2 ∧ 3 / 3 = 4 / 3 ∧ 3 % 3 + 1 = 4 % 3) :=
  ⟨by decide,
    (claim_C10 (TileIndex.mk 3 2) (by decide) (by decide) 4 (by decide)).1
      3 (by decide)⟩

/-- Number of cells still unvisited in a visited-flag vector. -/
def unvisitedCount (visited : List Bool) : Nat :=
  visited.count false

/-- A `getD` with default `true` that returns `false` proves the index is in
range. -/
theorem getD_false_lt {v : List Bool} {i : Nat} (h : v.getD i true = false) :
    i < v.length := by
  by_contra hge
  rw [List.getD_eq_default _ _ (by omega)] at h
  exact Bool.noConfusion h

/-- Reading back the written flag: `getD` after `set` at the same in-range
index. -/
theorem getD_set_self {v : List Bool} {i : Nat} (h : i < v.length)
    (b d : Bool) : (v.set i b).getD i d = b := by
  induction v generalizing i with
  | nil => simp at h
  | cons a t ih =>
    cases i with
    | zero => rfl
    | succ i => exact ih (by simpa using h) 

/-- `getD` after `set` at a different index. -/
theorem getD_set_ne {v : List Bool} {i j : Nat} (h : j ≠ i)
    (b d : Bool) : (v.set i b).getD j d = v.getD j d := by
  induction v generalizing i j with
  | nil => rfl
  | cons a t ih =>
    cases i with
    | zero =>
      cases j with
      | zero => exact absurd rfl h
      | succ j => rfl
    | succ i =>
      cases j with
      | zero => rfl
      | succ j => exact ih (by omega) 

/-- Marking a cell visited never unmarks anything. -/
theorem getD_set_true_mono {v : List Bool} {i c : Nat}
    (h : v.getD c true = true) : (v.set i true).getD c true = true := by
  by_cases hc : c = i
  · subst hc
    by_cases hlt : c < v.length
    · exact getD_set_self hlt true true
    · rw [List.set_eq_of_length_le (by omega)]
      exact h
  · rw [getD_set_ne hc]
    exact h

/-- A cell unvisited after a mark was unvisited before it. -/
theorem getD_set_true_false {v : List Bool} {i c : Nat}
    (h : (v.set i true).getD c true = false) : v.getD c true = false := by
  by_contra hne
  have : v.getD c true = true := by
    cases hb : v.getD c true with
    | false => exact absurd hb hne
    | true => rfl
  rw [getD_set_true_mono this] at h
  exact Bool.noConfusion h

/-- Marking an unvisited in-range cell decreases the unvisited count by
exactly one. -/
theorem unvisitedCount_set_true {v : List Bool} {i : Nat}
    (h : v.getD i true = false) :
    unvisitedCount (v.set i true) + 1 = unvisitedCount v := by
  induction v generalizing i with
  | nil => exact absurd h (by simp)
  | cons a t ih =>
    cases i with
    | zero =>
      have ha : a = false := h
      subst ha
      simp [unvisitedCount, List.count_cons]
    | succ i =>
      have e : (a :: t).set (i + 1) true = a :: t.set i true := rfl
      rw [e]
      have := ih (i := i) h
      simp only [unvisitedCount, List.count_cons] at *
      omega

/-- `getD` on `replicate` in range. -/
theorem getD_replicate_false {n c : Nat} (h : c < n) (d : Bool) :
    (List.replicate n false).getD c d = false := by
  induction n generalizing c with
  | zero => omega
  | succ n ih =>
    cases c with
    | zero => rfl
    | succ c =>
      show (List.replicate n false).getD c d = false
      exact ih (by omega)

/-- `struct FieldMap` from `src/bin/day10.rs`: cell elevations (row-major)
plus the grid dimensions. -/
structure FieldMap : Type where
  data : List Nat
  tiles : TileIndex

namespace FieldMap

/-- `FieldMap::directional_neighbors` from day 10: the existing members of
`left`, `right`, `up`, `down`, chained in that order. -/
def directional_neighbors (f : FieldMap) (index : Nat) : List Nat :=
  (f.tiles.left index).toList ++ (f.tiles.right index).toList
    ++ (f.tiles.up index).toList ++ (f.tiles.down index).toList

/-- `FieldMap::neighbors` from day 10: directional neighbors whose elevation
is exactly one above the current cell. -/
def neighbors (f : FieldMap) (i : Nat) : List Nat :=
  (f.directional_neighbors i).filter
    (fun j => f.data.getD i 0 + 1 == f.data.getD j 0)

end FieldMap

/-- Core loop of `FieldMap::dfs` from day 10, generalized over the neighbor
function. `Vec::pop` takes the back of the Rust vector, so the vector is
modelled reversed: the head of `to_visit` is the top of the stack, and
`extend`ing with the neighbor list prepends it reversed. The Rust
`visited[index]` read is modelled as `getD` with default `true`, so an
out-of-range index (which would panic in Rust) is inert. Besides the final
visited flags, the embedding returns two ghost observations used only by the
analysis: the number of loop iterations and the list of indices whose body was
processed (popped while unvisited), in processing order. -/
def dfsLoop (nbrs : Nat → List Nat) :
    List Nat → List Bool → List Bool × Nat × List Nat
  | [], visited => (visited, 0, [])
  | index :: rest, visited =>
    if h : visited.getD index true then
      let r := dfsLoop nbrs rest visited
      (r.1, r.2.1 + 1, r.2.2)
    else
      let r := dfsLoop nbrs ((nbrs index).reverse ++ rest) (visited.set index true)
      (r.1, r.2.1 + 1, index :: r.2.2)
termination_by l v => (unvisitedCount v, l.length)
decreasing_by
· apply Prod.Lex.right
  simp [List.length_cons]
· apply Prod.Lex.left
  have hf : visited.getD index true = false := by
    cases hb : visited.getD index true with
    | false => rfl
    | true => exact absurd hb h
  have := unvisitedCount_set_true hf
  omega

/-- The tail of `FieldMap::dfs`: collect the indices whose visited flag is
set (`enumerate`, `filter`, then `map` to the index). -/
def visitedIndices (visited : List Bool) : List Nat :=
  (visited.enum.filter (fun p => p.2)).map Prod.fst

/-- `FieldMap::dfs` from day 10. The Rust stack pops from the back of the
collected `start` vector, so the reversed-list model starts from
`start.reverse`; the ghost components of `dfsLoop` are dropped. -/
def FieldMap.dfs (f : FieldMap) (start : List Nat) : List Nat :=
  visitedIndices
    (dfsLoop f.neighbors start.reverse (List.replicate f.data.length false)).1

/-- The DFS loop preserves the length of the visited vector. -/
theorem dfsLoop_length (nbrs : Nat → List Nat) (l : List Nat) (v : List Bool) :
    (dfsLoop nbrs l v).1.length = v.length := by
  induction l, v using dfsLoop.induct nbrs with
  | case1 v => simp [dfsLoop]
  | case2 index rest v h ih =>
    rw [dfsLoop]
    simp only [dif_pos h]
    exact ih
  | case3 index rest v h ih =>
    rw [dfsLoop]
    simp only [dif_neg h]
    rw [ih]
    exact List.length_set v index true

/-- A cell ends the DFS loop marked visited exactly when it started visited or
its body was processed during the loop: marking coincides with processing. -/
theorem dfsLoop_visited_iff (nbrs : Nat → List Nat) (l : List Nat)
    (v : List Bool) (c : Nat) :
    (dfsLoop nbrs l v).1.getD c true = true ↔
      (v.getD c true = true ∨ c ∈ (dfsLoop nbrs l v).2.2) := by
  induction l, v using dfsLoop.induct nbrs with
  | case1 v => simp [dfsLoop]
  | case2 index rest v h ih =>
    rw [dfsLoop]
    simp only [dif_pos h]
    exact ih
  | case3 index rest v h ih =>
    have hf : v.getD index true = false := by
      cases hb : v.getD index true with
      | false => rfl
      | true => exact absurd hb h
    have hlt : index < v.length := getD_false_lt hf
    rw [dfsLoop]
    simp only [dif_neg h]
    rw [ih]
    constructor
    · rintro (hv | hm)
      · by_cases hc : c = index
        · subst hc
          exact Or.inr (List.mem_cons_self _ _)
        · rw [getD_set_ne hc] at hv
          exact Or.inl hv
      · exact Or.inr (List.mem_cons_of_mem _ hm)
    · rintro (hv | hm)
      · exact Or.inl (getD_set_true_mono hv)
      · rcases List.mem_cons.mp hm with hc | hm
        · subst hc
          exact Or.inl (getD_set_self hlt true true)
        · exact Or.inr hm

/-- The processed-cell trace of the DFS loop has no duplicates, and every
processed cell was unvisited when the loop started: each cell's body runs at
most once, and only for cells that were unvisited. -/
theorem dfsLoop_trace_nodup_fresh (nbrs : Nat → List Nat) (l : List Nat)
    (v : List Bool) :
    (dfsLoop nbrs l v).2.2.Nodup
      ∧ ∀ c ∈ (dfsLoop nbrs l v).2.2, v.getD c true = false := by
  induction l, v using dfsLoop.induct nbrs with
  | case1 v => simp [dfsLoop]
  | case2 index rest v h ih =>
    rw [dfsLoop]
    simp only [dif_pos h]
    exact ih
  | case3 index rest v h ih =>
    have hf : v.getD index true = false := by
      cases hb : v.getD index true with
      | false => rfl
      | true => exact absurd hb h
    have hlt : index < v.length := getD_false_lt hf
    rw [dfsLoop]
    simp only [dif_neg h]
    obtain ⟨hnd, hfresh⟩ := ih
    have hnotmem : index ∉ (dfsLoop nbrs ((nbrs index).reverse ++ rest) (v.set index true)).2.2 := by
      intro hmem
      have := hfresh index hmem
      rw [getD_set_self hlt true true] at this
      exact Bool.noConfusion this
    refine ⟨List.nodup_cons.mpr ⟨hnotmem, hnd⟩, ?_⟩
    intro c hc
    rcases List.mem_cons.mp hc with hc | hc
    · subst hc
      exact hf
    · exact getD_set_true_false (hfresh c hc)

/-- The DFS loop runs for at most `|stack| + 4 · (unvisited cells)` iterations
when every cell has at most four neighbors. -/
theorem dfsLoop_steps_le (nbrs : Nat → List Nat)
    (hb : ∀ i, (nbrs i).length ≤ 4) (l : List Nat) (v : List Bool) :
    (dfsLoop nbrs l v).2.1 ≤ l.length + 4 * unvisitedCount v := by
  induction l, v using dfsLoop.induct nbrs with
  | case1 v => simp [dfsLoop]
  | case2 index rest v h ih =>
    rw [dfsLoop]
    simp only [dif_pos h, List.length_cons]
    omega
  | case3 index rest v h ih =>
    have hf : v.getD index true = false := by
      cases hb : v.getD index true with
      | false => rfl
      | true => exact absurd hb h
    have hcnt := unvisitedCount_set_true hf
    have hlen : ((nbrs index).reverse ++ rest).length
        = (nbrs index).length + rest.length := by
      rw [List.length_append, List.length_reverse]
    have hnb := hb index
    rw [dfsLoop]
    simp only [dif_neg h, List.length_cons]
    rw [hlen] at ih
    omega

/-- Membership in the filtered enumeration underlying `visitedIndices`. -/
theorem mem_enumFrom_filter (v : List Bool) :
    ∀ (s c : Nat),
      (c ∈ ((List.enumFrom s v).filter (fun p => p.2)).map Prod.fst ↔
        ∃ i, i < v.length ∧ c = s + i ∧ v.getD i true = true) := by
  induction v with
  | nil => simp
  | cons a t ih =>
    intro s c
    cases a with
    | false =>
      show c ∈ ((List.enumFrom (s + 1) t).filter (fun p => p.2)).map Prod.fst ↔ _
      rw [ih (s + 1) c]
      constructor
      · rintro ⟨i, hi, hc, hv⟩
        exact ⟨i + 1, by simpa using hi, by omega, hv⟩
      · rintro ⟨i, hi, hc, hv⟩
        cases i with
        | zero => exact absurd hv (by simp)
        | succ i => exact ⟨i, by simpa using hi, by omega, hv⟩
    | true =>
      show c ∈ s :: ((List.enumFrom (s + 1) t).filter (fun p => p.2)).map Prod.fst ↔ _
      rw [List.mem_cons, ih (s + 1) c]
      constructor
      · rintro (hc | ⟨i, hi, hc, hv⟩)
        · exact ⟨0, by simp, by omega, rfl⟩
        · exact ⟨i + 1, by simpa using hi, by omega, hv⟩
      · rintro ⟨i, hi, hc, hv⟩
        cases i with
        | zero => exact Or.inl (by omega)
        | succ i => exact Or.inr ⟨i, by simpa using hi, by omega, hv⟩

/-- Membership in `visitedIndices`: exactly the in-range indices whose flag is
set. -/
theorem mem_visitedIndices {v : List Bool} {c : Nat} :
    c ∈ visitedIndices v ↔ c < v.length ∧ v.getD c true = true := by
  show c ∈ ((List.enumFrom 0 v).filter (fun p => p.2)).map Prod.fst ↔ _
  rw [mem_enumFrom_filter v 0 c]
  constructor
  · rintro ⟨i, hi, hc, hv⟩
    exact ⟨by omega, by rwa [show c = i by omega]⟩
  · rintro ⟨hc, hv⟩
    exact ⟨c, hc, by omega, hv⟩

/-- No index is collected from an all-false visited vector. -/
theorem visitedIndices_replicate (n : Nat) :
    visitedIndices (List.replicate n false) = [] := by
  apply List.eq_nil_iff_forall_not_mem.mpr
  intro c hc
  obtain ⟨hlt, hv⟩ := mem_visitedIndices.mp hc
  rw [List.length_replicate] at hlt
  rw [getD_replicate_false hlt] at hv
  exact Bool.noConfusion hv

/-- C9: a traversal invoked with an empty start collection returns an empty
result and signals no error: the loop immediately returns its inputs
untouched, and day 10's `dfs` yields the empty list of visited cells. -/
theorem claim_C9 :
    (∀ (nbrs : Nat → List Nat) (visited : List Bool),
      dfsLoop nbrs [] visited = (visited, 0, []))
    ∧ ∀ f : FieldMap, f.dfs [] = [] := by
  constructor
  · intro nbrs visited
    rw [dfsLoop]
  · intro f
    show visitedIndices (dfsLoop f.neighbors ([] : List Nat).reverse
      (List.replicate f.data.length false)).1 = []
    rw [List.reverse_nil, dfsLoop]
    exact visitedIndices_replicate _

/-- Cells reachable from the pending stack by following neighbor edges whose
sources are currently unvisited. This is the exact remaining work of the DFS
loop from a mid-loop state. -/
inductive ReachThrough (nbrs : Nat → List Nat) (visited : List Bool) :
    List Nat → Nat → Prop where
  | base {stack : List Nat} {x : Nat} :
      x ∈ stack → ReachThrough nbrs visited stack x
  | step {stack : List Nat} {x j : Nat} :
      ReachThrough nbrs visited stack x → visited.getD x true = false →
      j ∈ nbrs x → ReachThrough nbrs visited stack j

/-- `ReachThrough` is monotone in the stack, up to membership. -/
theorem ReachThrough.mono {nbrs : Nat → List Nat} {v : List Bool}
    {l l' : List Nat} {c : Nat} (hsub : ∀ y, y ∈ l → y ∈ l')
    (h : ReachThrough nbrs v l c) : ReachThrough nbrs v l' c := by
  induction h with
  | base hm => exact ReachThrough.base (hsub _ hm)
  | step _ hx hj ih => exact ReachThrough.step ih hx hj

/-- Nothing is reachable from an empty stack. -/
theorem ReachThrough.nil_false {nbrs : Nat → List Nat} {v : List Bool}
    {c : Nat} (h : ReachThrough nbrs v ([] : List Nat) c) : False := by
  induction h with
  | base hm => exact absurd hm (List.not_mem_nil _)
  | step _ _ _ ih => exact ih

/-- Popping an already-visited head contributes nothing beyond itself. -/
theorem ReachThrough.cons_visited {nbrs : Nat → List Nat} {v : List Bool}
    {i : Nat} {l : List Nat} {c : Nat} (hv : v.getD i true = true)
    (h : ReachThrough nbrs v (i :: l) c) :
    c = i ∨ ReachThrough nbrs v l c := by
  induction h with
  | base hm =>
    rcases List.mem_cons.mp hm with hc | hc
    · exact Or.inl hc
    · exact Or.inr (ReachThrough.base hc)
  | step _ hx hj ih =>
    rcases ih with hc | hr
    · subst hc
      rw [hv] at hx
      exact absurd hx (by simp)
    · exact Or.inr (ReachThrough.step hr hx hj)

/-- Reachability through a more-visited state is reachability through the
original state. -/
theorem ReachThrough.unset {nbrs : Nat → List Nat} {v : List Bool}
    {i : Nat} {l : List Nat} {c : Nat}
    (h : ReachThrough nbrs (v.set i true) l c) : ReachThrough nbrs v l c := by
  induction h with
  | base hm => exact ReachThrough.base hm
  | step _ hx hj ih => exact ReachThrough.step ih (getD_set_true_false hx) hj

/-- Pushing the neighbors of an unvisited cell is subsumed by keeping the cell
itself on the stack. -/
theorem ReachThrough.push {nbrs : Nat → List Nat} {v : List Bool}
    {i : Nat} {l : List Nat} {c : Nat} (hf : v.getD i true = false)
    (h : ReachThrough nbrs v (nbrs i ++ l) c) :
    ReachThrough nbrs v (i :: l) c := by
  induction h with
  | base hm =>
    rcases List.mem_append.mp hm with hn | hl
    · exact ReachThrough.step (ReachThrough.base (List.mem_cons_self _ _)) hf hn
    · exact ReachThrough.base (List.mem_cons_of_mem _ hl)
  | step _ hx hj ih => exact ReachThrough.step ih hx hj

/-- Processing the head of the stack (mark it, push its neighbors) preserves
the total remaining reachability, relative to the updated visited state. -/
theorem ReachThrough.process {nbrs : Nat → List Nat} {v : List Bool}
    {i : Nat} {rest : List Nat} {c : Nat} (hf : v.getD i true = false)
    (hlt : i < v.length) (h : ReachThrough nbrs v (i :: rest) c) :
    (v.set i true).getD c true = true
      ∨ ReachThrough nbrs (v.set i true) ((nbrs i).reverse ++ rest) c := by
  induction h with
  | base hm =>
    rcases List.mem_cons.mp hm with hc | hc
    · subst hc
      exact Or.inl (getD_set_self hlt true true)
    · exact Or.inr (ReachThrough.base (List.mem_append.mpr (Or.inr hc)))
  | step _ hx hj ih =>
    rename_i x j _
    by_cases hxi : x = i
    · subst hxi
      exact Or.inr (ReachThrough.base
        (List.mem_append.mpr (Or.inl (List.mem_reverse.mpr hj))))
    · rcases ih with hv | hr
      · rw [getD_set_ne hxi] at hv
        rw [hv] at hx
        exact absurd hx (by simp)
      · refine Or.inr (ReachThrough.step hr ?_ hj)
        rw [getD_set_ne hxi]
        exact hx

/-- The visited set computed by the DFS loop is exactly the initial visited
set plus everything reachable from the stack through unvisited cells: a
characterization independent of the loop's processing order. -/
theorem dfsLoop_reach (nbrs : Nat → List Nat) (l : List Nat) (v : List Bool)
    (c : Nat) :
    (dfsLoop nbrs l v).1.getD c true = true ↔
      (v.getD c true = true ∨ ReachThrough nbrs v l c) := by
  induction l, v using dfsLoop.induct nbrs with
  | case1 v =>
    rw [dfsLoop]
    constructor
    · exact fun h => Or.inl h
    · rintro (h | h)
      · exact h
      · exact absurd h ReachThrough.nil_false
  | case2 index rest v h ih =>
    rw [dfsLoop]
    simp only [dif_pos h]
    rw [ih]
    constructor
    · rintro (hv | hr)
      · exact Or.inl hv
      · exact Or.inr (hr.mono (fun y hy => List.mem_cons_of_mem _ hy))
    · rintro (hv | hr)
      · exact Or.inl hv
      · rcases hr.cons_visited h with hc | hr
        · subst hc
          exact Or.inl h
        · exact Or.inr hr
  | case3 index rest v h ih =>
    have hf : v.getD index true = false := by
      cases hb : v.getD index true with
      | false => rfl
      | true => exact absurd hb h
    have hlt : index < v.length := getD_false_lt hf
    rw [dfsLoop]
    simp only [dif_neg h]
    rw [ih]
    constructor
    · rintro (hv | hr)
      · by_cases hc : c = index
        · subst hc
          exact Or.inr (ReachThrough.base (List.mem_cons_self _ _))
        · rw [getD_set_ne hc] at hv
          exact Or.inl hv
      · have hr' : ReachThrough nbrs v ((nbrs index).reverse ++ rest) c :=
          hr.unset
        have hr'' : ReachThrough nbrs v (nbrs index ++ rest) c :=
          hr'.mono (fun y hy => by
            rcases List.mem_append.mp hy with hy | hy
            · exact List.mem_append.mpr (Or.inl (List.mem_reverse.mp hy))
            · exact List.mem_append.mpr (Or.inr hy))
        exact Or.inr (hr''.push hf)
    · rintro (hv | hr)
      · exact Or.inl (getD_set_true_mono hv)
      · exact hr.process hf hlt

/-- Order-free specification of a traversal's result: the closure of a start
set under the neighbor relation. It depends on the start collection only
through membership. -/
inductive ReachableFrom (nbrs : Nat → List Nat) (S : Nat → Prop) : Nat → Prop where
  | base {x : Nat} : S x → ReachableFrom nbrs S x
  | step {x j : Nat} :
      ReachableFrom nbrs S x → j ∈ nbrs x → ReachableFrom nbrs S j

/-- `ReachableFrom` respects extensional equality of start sets. -/
theorem ReachableFrom.congr {nbrs : Nat → List Nat} {S S' : Nat → Prop}
    (hss : ∀ x, S x ↔ S' x) {c : Nat} (h : ReachableFrom nbrs S c) :
    ReachableFrom nbrs S' c := by
  induction h with
  | base hs => exact ReachableFrom.base ((hss _).mp hs)
  | step _ hj ih => exact ReachableFrom.step ih hj

/-- If the neighbor function is closed below `n` and all starts are below `n`,
everything reachable is below `n`. -/
theorem ReachableFrom.lt_of_closed {nbrs : Nat → List Nat} {S : Nat → Prop} {n : Nat}
    (hcl : ∀ x, x < n → ∀ j ∈ nbrs x, j < n) (hS : ∀ x, S x → x < n)
    {c : Nat} (h : ReachableFrom nbrs S c) : c < n := by
  induction h with
  | base hs => exact hS _ hs
  | step _ hj ih => exact hcl _ ih _ hj

/-- From the all-unvisited initial state, reachability through unvisited cells
coincides with the plain closure of the start set. -/
theorem reachThrough_replicate_iff (nbrs : Nat → List Nat) (n : Nat)
    (starts : List Nat) (hcl : ∀ x, x < n → ∀ j ∈ nbrs x, j < n)
    (hS : ∀ s ∈ starts, s < n) (c : Nat) :
    ReachThrough nbrs (List.replicate n false) starts.reverse c ↔
      ReachableFrom nbrs (fun s => s ∈ starts) c := by
  constructor
  · intro h
    induction h with
    | base hm => exact ReachableFrom.base (List.mem_reverse.mp hm)
    | step _ _ hj ih => exact ReachableFrom.step ih hj
  · intro h
    induction h with
    | base hs => exact ReachThrough.base (List.mem_reverse.mpr hs)
    | step hx hj ih =>
      refine ReachThrough.step ih ?_ hj
      exact getD_replicate_false (hx.lt_of_closed hcl hS) true

/-- A successful `down` lands strictly inside the grid. -/
theorem down_lt_of_some {t : TileIndex} {i j : Nat} (hw : 0 < t.width)
    (h : t.down i = some j) : j < t.width * t.height := by
  obtain ⟨hc, hj⟩ := TileIndex.down_eq_some h
  have hdiv : j / t.width = i / t.width + 1 := by
    rw [hj, Nat.add_div_right _ hw]
  have : j / t.width < t.height := by
    generalize hqi : i / t.width = q at hc hdiv
    generalize hqj : j / t.width = r at hdiv ⊢
    omega
  rw [Nat.div_lt_iff_lt_mul hw, Nat.mul_comm] at this
  exact this

/-- Day 10's neighbor function is closed inside the grid. -/
theorem FieldMap.neighbors_lt (f : FieldMap) (hw : 0 < f.tiles.width)
    (hlen : f.data.length = f.tiles.width * f.tiles.height) :
    ∀ x, x < f.data.length → ∀ j ∈ f.neighbors x, j < f.data.length := by
  intro x hx j hj
  have hdir : j ∈ f.directional_neighbors x :=
    List.mem_of_mem_filter hj
  unfold FieldMap.directional_neighbors at hdir
  rw [hlen]
  rw [hlen] at hx
  rcases List.mem_append.mp hdir with hd | hdown
  rcases List.mem_append.mp hd with hd | hup
  rcases List.mem_append.mp hd with hleft | hright
  · obtain ⟨-, -, hj⟩ :=
      TileIndex.left_eq_some (Option.mem_def.mp (Option.mem_toList.mp hleft))
    omega
  · obtain ⟨-, h2, hj⟩ :=
      TileIndex.right_eq_some (Option.mem_def.mp (Option.mem_toList.mp hright))
    omega
  · obtain ⟨-, hj⟩ :=
      TileIndex.up_eq_some (Option.mem_def.mp (Option.mem_toList.mp hup))
    omega
  · exact down_lt_of_some hw (Option.mem_def.mp (Option.mem_toList.mp hdown))

/-- C6: for a fixed grid (as passability) and a fixed start set, the visited
set computed by day 10's `dfs` equals the order-free closure of the start set
under the neighbor relation, so it is uniquely determined; in particular
supplying the start cells in any other order (any list with the same members)
yields the same visited set. -/
theorem claim_C6 (f : FieldMap) (hw : 0 < f.tiles.width)
    (_hh : 0 < f.tiles.height)
    (hlen : f.data.length = f.tiles.width * f.tiles.height)
    (starts : List Nat) (hstarts : ∀ s ∈ starts, s < f.data.length) :
    (∀ c, c ∈ f.dfs starts ↔
      ReachableFrom f.neighbors (fun s => s ∈ starts) c)
    ∧ ∀ starts' : List Nat, (∀ x, x ∈ starts' ↔ x ∈ starts) →
        ∀ c, (c ∈ f.dfs starts' ↔ c ∈ f.dfs starts) := by
  have hcl := f.neighbors_lt hw hlen
  have key : ∀ st : List Nat, (∀ s ∈ st, s < f.data.length) →
      ∀ c, (c ∈ f.dfs st ↔ ReachableFrom f.neighbors (fun s => s ∈ st) c) := by
    intro st hst c
    show c ∈ visitedIndices
      (dfsLoop f.neighbors st.reverse (List.replicate f.data.length false)).1 ↔ _
    rw [mem_visitedIndices, dfsLoop_length, List.length_replicate,
      dfsLoop_reach, reachThrough_replicate_iff f.neighbors f.data.length st hcl hst]
    constructor
    · rintro ⟨hlt, hv | hr⟩
      · rw [getD_replicate_false hlt] at hv
        exact absurd hv (by simp)
      · exact hr
    · intro hr
      exact ⟨hr.lt_of_closed hcl hst, Or.inr hr⟩
  refine ⟨key starts hstarts, ?_⟩
  intro starts' hmem c
  have hst' : ∀ s ∈ starts', s < f.data.length :=
    fun s hs => hstarts s ((hmem s).mp hs)
  rw [key starts' hst' c, key starts hstarts c]
  exact ⟨fun h => h.congr hmem, fun h => h.congr (fun x => (hmem x).symm)⟩

/-- Witness for C6 on the 2 × 1 elevation grid `[0, 1]` started at cell 0. -/
theorem claim_C6_witness :
    (0 < 2 ∧ 0 < 1
      ∧ (FieldMap.mk [0, 1] (TileIndex.mk 2 1)).data.length
        = (TileIndex.mk 2 1).width * (TileIndex.mk 2 1).height
      ∧ ∀ s ∈ ([0] : List Nat),
          s < (FieldMap.mk [0, 1] (TileIndex.mk 2 1)).data.length)
    ∧ ((∀ c, c ∈ (FieldMap.mk [0, 1] (TileIndex.mk 2 1)).dfs [0] ↔
          ReachableFrom (FieldMap.mk [0, 1] (TileIndex.mk 2 1)).neighbors
            (fun s => s ∈ ([0] : List Nat)) c)
        ∧ ∀ starts' : List Nat, (∀ x, x ∈ starts' ↔ x ∈ ([0] : List Nat)) →
            ∀ c, (c ∈ (FieldMap.mk [0, 1] (TileIndex.mk 2 1)).dfs starts'
              ↔ c ∈ (FieldMap.mk [0, 1] (TileIndex.mk 2 1)).dfs [0])) :=
  ⟨⟨by decide, by decide, by decide, by decide⟩,
    claim_C6 (FieldMap.mk [0, 1] (TileIndex.mk 2 1)) (by decide) (by decide)
      (by decide) [0] (by decide)⟩

/-- `struct Grid` from `src/bin/day18.rs`: obstacle flags (row-major, `true`
is a marked/corrupted cell) plus the grid dimensions. -/
structure Grid : Type where
  data : List Bool
  tile_index : TileIndex

namespace Grid

/-- The neighbor indices that the day-18 BFS pushes for one processed cell:
for each direction in the order of the Rust `for` loop, the directional
neighbor if it exists, is not yet visited, and is not an obstacle. The Rust
`Vec` reads `visited[idx]` / `self.data[idx]` are modelled with `getD` default
`true`, so an out-of-range index (a panic in Rust) is inert. -/
def enqueue (g : Grid) (visited : List Bool) (index : Nat) : List Nat :=
  [Direction.left, Direction.right, Direction.up, Direction.down].filterMap
    (fun dir => (g.tile_index.dir_to index dir).filter
      (fun idx => !(visited.getD idx true) && !(g.data.getD idx true)))

/-- One iteration of the `while` loop of `Grid::step_count`: process the
pending `to_visit` list front to back. A popped cell already visited is
skipped; otherwise it is marked, and if it is the target
(`visited.len() - 1`) the Rust code returns early (`Sum.inl`), else its
admissible neighbors are appended to the next level's list. Besides the
updated visited flags and next list, a ghost trace of the cells processed
during the level (in order) is returned. -/
def runLevel (g : Grid) :
    List Nat → List Bool → List Nat →
      List Nat ⊕ (List Bool × List Nat × List Nat)
  | [], visited, next => Sum.inr (visited, next, [])
  | index :: rest, visited, next =>
    if visited.getD index true then runLevel g rest visited next
    else
      if index = visited.length - 1 then Sum.inl [index]
      else
        match runLevel g rest (visited.set index true)
            (next ++ g.enqueue (visited.set index true) index) with
        | Sum.inl tr => Sum.inl (index :: tr)
        | Sum.inr r => Sum.inr (r.1, r.2.1, index :: r.2.2)

/-- A completed level never shrinks the unvisited count, and a level that
marks nothing also enqueues nothing and leaves the flags untouched. -/
theorem runLevel_unvisited (g : Grid) :
    ∀ (l : List Nat) (v : List Bool) (acc : List Nat)
      (v' : List Bool) (nx tr : List Nat),
      runLevel g l v acc = Sum.inr (v', nx, tr) →
      unvisitedCount v' ≤ unvisitedCount v
        ∧ (unvisitedCount v' = unvisitedCount v → v' = v ∧ nx = acc) := by
  intro l
  induction l with
  | nil =>
    intro v acc v' nx tr h
    rw [runLevel] at h
    simp only [Sum.inr.injEq, Prod.mk.injEq] at h
    obtain ⟨h1, h2, h3⟩ := h
    subst h1
    subst h2
    exact ⟨Nat.le_refl _, fun _ => ⟨rfl, rfl⟩⟩
  | cons index rest ih =>
    intro v acc v' nx tr h
    rw [runLevel] at h
    by_cases hv : v.getD index true = true
    · rw [if_pos hv] at h
      exact ih v acc v' nx tr h
    · have hf : v.getD index true = false := by
        cases hb : v.getD index true with
        | false => rfl
        | true => exact absurd hb hv
      rw [if_neg hv] at h
      by_cases ht : index = v.length - 1
      · rw [if_pos ht] at h
        exact absurd h (by simp)
      · rw [if_neg ht] at h
        have hcnt := unvisitedCount_set_true hf
        cases hrec : runLevel g rest (v.set index true)
            (acc ++ g.enqueue (v.set index true) index) with
        | inl tr2 =>
          rw [hrec] at h
          exact absurd h (by simp)
        | inr r =>
          rw [hrec] at h
          simp only [Sum.inr.injEq, Prod.mk.injEq] at h
          obtain ⟨h1, h2, h3⟩ := h
          subst h1
          subst h2
          have := (ih _ _ _ _ _ hrec).1
          exact ⟨by omega, by omega⟩

end Grid

namespace Grid

/-- The `while !to_visit.is_empty()` loop of `Grid::step_count`: run a level;
an early return yields `some count`, otherwise continue with the next level
and `count + 1`. Besides the Rust result, the embedding returns two ghost
observations used only by the analysis: the whole-call trace of processed
cells and the number of levels entered. The loop terminates because a level
either marks a new cell or produces an empty next level. -/
def stepCountAux (g : Grid) (to_visit : List Nat) (visited : List Bool)
    (count : Nat) : Option Nat × List Nat × Nat :=
  if he : to_visit.isEmpty then (none, [], 0)
  else
    match hr : runLevel g to_visit visited [] with
    | Sum.inl tr => (some count, tr, 1)
    | Sum.inr r =>
      let res := stepCountAux g r.2.1 r.1 (count + 1)
      (res.1, r.2.2 ++ res.2.1, res.2.2 + 1)
termination_by 2 * unvisitedCount visited + (if to_visit.isEmpty then 0 else 1)
decreasing_by
  obtain ⟨hle, heq⟩ :=
    runLevel_unvisited g to_visit visited [] r.1 r.2.1 r.2.2 (by rw [hr])
  rw [if_neg he]
  rcases Nat.lt_or_ge (unvisitedCount r.1) (unvisitedCount visited) with hlt | hge
  · have : (if r.2.1.isEmpty then 0 else 1) ≤ 1 := by
      split
      · omega
      · omega
    omega
  · obtain ⟨-, hnx⟩ := heq (Nat.le_antisymm hle hge)
    rw [hnx]
    simp only [List.isEmpty_nil, if_pos]
    omega

/-- `Grid::step_count` from day 18: breadth-first search from cell 0 for the
last cell, counting levels; the ghost components of `stepCountAux` are
dropped. -/
def step_count (g : Grid) : Option Nat :=
  (stepCountAux g [0] (List.replicate g.data.length false) 0).1

end Grid

/-- A successful `dir_to` from a valid index lands on a valid index. -/
theorem TileIndex.dir_to_lt {t : TileIndex} {x j : Nat} (hw : 0 < t.width)
    (hx : x < t.width * t.height) {d : Direction}
    (h : t.dir_to x d = some j) : j < t.width * t.height := by
  cases d with
  | left =>
    obtain ⟨-, -, hj⟩ := TileIndex.left_eq_some h
    omega
  | right =>
    obtain ⟨-, h2, hj⟩ := TileIndex.right_eq_some h
    omega
  | up =>
    obtain ⟨-, hj⟩ := TileIndex.up_eq_some h
    omega
  | down => exact down_lt_of_some hw h

namespace Grid

/-- One admissible move of the day-18 search: `j` is a directional neighbor
of `x`, and `j` is not a marked obstacle. -/
def canStep (g : Grid) (x j : Nat) : Prop :=
  (∃ d : Direction, g.tile_index.dir_to x d = some j)
    ∧ g.data.getD j true = false

/-- The walks explored by `Grid::step_count`: they begin at cell 0, and every
move enters an unmarked cell. The start cell's own obstacle flag plays no
role, mirroring the code, which seeds the frontier with cell 0
unconditionally. -/
inductive ReachesIn (g : Grid) : Nat → Nat → Prop where
  | start : ReachesIn g 0 0
  | step {x j k : Nat} :
      ReachesIn g x k → g.canStep x j → ReachesIn g j (k + 1)

/-- Modelled from the claim's wording, for comparison with `ReachesIn`: walks
from cell 0 that pass only through unmarked cells — all cells on the walk,
including the start cell itself, must be unmarked. -/
inductive SpecReachesIn (g : Grid) : Nat → Nat → Prop where
  | start : g.data.getD 0 true = false → SpecReachesIn g 0 0
  | step {x j k : Nat} :
      SpecReachesIn g x k → g.canStep x j → SpecReachesIn g j (k + 1)

/-- Every cell on a walk is a valid index. -/
theorem ReachesIn.lt_length {g : Grid} (hw : 0 < g.tile_index.width)
    (hh : 0 < g.tile_index.height)
    (hlen : g.data.length = g.tile_index.width * g.tile_index.height)
    {c k : Nat} (h : g.ReachesIn c k) : c < g.data.length := by
  rw [hlen]
  induction h with
  | start => exact Nat.mul_pos hw hh
  | step _ hs ih =>
    obtain ⟨⟨d, hd⟩, -⟩ := hs
    exact TileIndex.dir_to_lt hw ih hd

/-- Membership in the enqueued neighbor list. -/
theorem mem_enqueue {g : Grid} {v : List Bool} {i c : Nat} :
    c ∈ g.enqueue v i ↔
      ((∃ d : Direction, g.tile_index.dir_to i d = some c)
        ∧ v.getD c true = false ∧ g.data.getD c true = false) := by
  unfold enqueue
  rw [List.mem_filterMap]
  constructor
  · rintro ⟨d, -, hd⟩
    cases ho : g.tile_index.dir_to i d with
    | none =>
      rw [ho] at hd
      exact absurd hd (by simp [Option.filter])
    | some j =>
      rw [ho] at hd
      simp only [Option.filter] at hd
      by_cases hp : (!v.getD j true && !g.data.getD j true) = true
      · rw [if_pos hp] at hd
        rw [Bool.and_eq_true] at hp
        obtain ⟨h1, h2⟩ := hp
        cases Option.some.inj hd
        exact ⟨⟨d, ho⟩, by simpa using h1, by simpa using h2⟩
      · rw [if_neg hp] at hd
        exact absurd hd (by simp)
  · rintro ⟨⟨d, hd⟩, hv, hdata⟩
    refine ⟨d, by cases d <;> simp, ?_⟩
    rw [hd]
    simp only [Option.filter]
    have hv2 : v[c]?.getD true = false := by simpa using hv
    have hd2 : g.data[c]?.getD true = false := by simpa using hdata
    simp [hv2, hd2]

/-- Properties of a completed (no early return) level: lengths are preserved;
visited flags only grow; every popped cell ends visited; the new visited set
is exactly the old one plus the level's processed trace; the trace is a
duplicate-free list of previously-unvisited popped cells; every cell of the
next level was already pending or was enqueued for some popped cell; the
pending accumulator is kept; and if the target was in the level then it was
already visited when the level began. -/
theorem runLevel_inr_props (g : Grid) :
    ∀ (l : List Nat) (v : List Bool) (acc : List Nat)
      (v' : List Bool) (nx tr : List Nat),
      runLevel g l v acc = Sum.inr (v', nx, tr) →
      v'.length = v.length
      ∧ (∀ c, v.getD c true = true → v'.getD c true = true)
      ∧ (∀ x ∈ l, v'.getD x true = true)
      ∧ (∀ c, v'.getD c true = true ↔ (v.getD c true = true ∨ c ∈ tr))
      ∧ (∀ c ∈ tr, c ∈ l ∧ v.getD c true = false)
      ∧ tr.Nodup
      ∧ (∀ x ∈ nx, x ∈ acc ∨ ∃ i w, i ∈ l ∧ x ∈ g.enqueue w i)
      ∧ (∀ x ∈ acc, x ∈ nx)
      ∧ ((v.length - 1) ∈ l → v.getD (v.length - 1) true = true) := by
  intro l
  induction l with
  | nil =>
    intro v acc v' nx tr h
    rw [runLevel] at h
    simp only [Sum.inr.injEq, Prod.mk.injEq] at h
    obtain ⟨h1, h2, h3⟩ := h
    subst h1
    subst h2
    subst h3
    refine ⟨rfl, fun c hc => hc, by simp, ?_, by simp, List.nodup_nil,
      fun x hx => Or.inl hx, fun x hx => hx, by simp⟩
    intro c
    simp
  | cons index rest ih =>
    intro v acc v' nx tr h
    rw [runLevel] at h
    by_cases hv : v.getD index true = true
    · rw [if_pos hv] at h
      obtain ⟨iL, iMono, iPop, iIff, iSub, iNd, iNext, iAcc, iTgt⟩ :=
        ih v acc v' nx tr h
      refine ⟨iL, iMono, ?_, iIff, ?_, iNd, ?_, iAcc, ?_⟩
      · intro x hx
        rcases List.mem_cons.mp hx with hx | hx
        · subst hx
          exact iMono _ hv
        · exact iPop _ hx
      · intro c hc
        obtain ⟨hm, hfr⟩ := iSub c hc
        exact ⟨List.mem_cons_of_mem _ hm, hfr⟩
      · intro x hx
        rcases iNext x hx with hx | ⟨i, w, hi, hw⟩
        · exact Or.inl hx
        · exact Or.inr ⟨i, w, List.mem_cons_of_mem _ hi, hw⟩
      · intro htv
        rcases List.mem_cons.mp htv with htv | htv
        · rw [htv]
          exact hv
        · exact iTgt htv
    · have hf : v.getD index true = false := by
        cases hb : v.getD index true with
        | false => rfl
        | true => exact absurd hb hv
      have hlt : index < v.length := getD_false_lt hf
      rw [if_neg hv] at h
      by_cases ht : index = v.length - 1
      · rw [if_pos ht] at h
        exact absurd h (by simp)
      · rw [if_neg ht] at h
        cases hrec : runLevel g rest (v.set index true)
            (acc ++ g.enqueue (v.set index true) index) with
        | inl tr2 =>
          rw [hrec] at h
          exact absurd h (by simp)
        | inr r =>
          rw [hrec] at h
          simp only [Sum.inr.injEq, Prod.mk.injEq] at h
          obtain ⟨h1, h2, h3⟩ := h
          subst h1
          subst h2
          subst h3
          obtain ⟨iL, iMono, iPop, iIff, iSub, iNd, iNext, iAcc, iTgt⟩ :=
            ih _ _ _ _ _ hrec
          have hsetlen : (v.set index true).length = v.length :=
            List.length_set v index true
          refine ⟨by rw [iL, hsetlen], ?_, ?_, ?_, ?_, ?_, ?_, ?_, ?_⟩
          · intro c hc
            exact iMono _ (getD_set_true_mono hc)
          · intro x hx
            rcases List.mem_cons.mp hx with hx | hx
            · subst hx
              exact iMono _ (getD_set_self hlt true true)
            · exact iPop _ hx
          · intro c
            rw [iIff c]
            constructor
            · rintro (hc | hc)
              · by_cases hci : c = index
                · subst hci
                  exact Or.inr (List.mem_cons_self _ _)
                · rw [getD_set_ne hci] at hc
                  exact Or.inl hc
              · exact Or.inr (List.mem_cons_of_mem _ hc)
            · rintro (hc | hc)
              · exact Or.inl (getD_set_true_mono hc)
              · rcases List.mem_cons.mp hc with hc | hc
                · subst hc
                  exact Or.inl (getD_set_self hlt true true)
                · exact Or.inr hc
          · intro c hc
            rcases List.mem_cons.mp hc with hc | hc
            · subst hc
              exact ⟨List.mem_cons_self _ _, hf⟩
            · obtain ⟨hm, hfr⟩ := iSub c hc
              exact ⟨List.mem_cons_of_mem _ hm, getD_set_true_false hfr⟩
          · refine List.nodup_cons.mpr ⟨?_, iNd⟩
            intro hmem
            have := (iSub index hmem).2
            rw [getD_set_self hlt true true] at this
            exact Bool.noConfusion this
          · intro x hx
            rcases iNext x hx with hx | ⟨i, w, hi, hw⟩
            · rcases List.mem_append.mp hx with hx | hx
              · exact Or.inl hx
              · exact Or.inr ⟨index, v.set index true,
                  List.mem_cons_self _ _, hx⟩
            · exact Or.inr ⟨i, w, List.mem_cons_of_mem _ hi, hw⟩
          · intro x hx
            exact iAcc x (List.mem_append.mpr (Or.inl hx))
          · intro htv
            rcases List.mem_cons.mp htv with htv | htv
            · exact absurd htv.symm ht
            · have := iTgt (by rw [hsetlen]; exact htv)
              rw [hsetlen] at this
              rw [getD_set_ne (by omega)] at this
              exact this

/-- Properties of a level that returned early: the target cell was pending and
was unvisited when the level began, and the trace so far is a duplicate-free
list of previously-unvisited cells. -/
theorem runLevel_inl_props (g : Grid) :
    ∀ (l : List Nat) (v : List Bool) (acc : List Nat) (tr : List Nat),
      runLevel g l v acc = Sum.inl tr →
      ((v.length - 1) ∈ l ∧ v.getD (v.length - 1) true = false)
      ∧ tr.Nodup ∧ (∀ c ∈ tr, v.getD c true = false) := by
  intro l
  induction l with
  | nil =>
    intro v acc tr h
    rw [runLevel] at h
    exact absurd h (by simp)
  | cons index rest ih =>
    intro v acc tr h
    rw [runLevel] at h
    by_cases hv : v.getD index true = true
    · rw [if_pos hv] at h
      obtain ⟨⟨hm, hfr⟩, hnd, hfresh⟩ := ih v acc tr h
      exact ⟨⟨List.mem_cons_of_mem _ hm, hfr⟩, hnd, hfresh⟩
    · have hf : v.getD index true = false := by
        cases hb : v.getD index true with
        | false => rfl
        | true => exact absurd hb hv
      have hlt : index < v.length := getD_false_lt hf
      rw [if_neg hv] at h
      by_cases ht : index = v.length - 1
      · rw [if_pos ht] at h
        have htr : tr = [index] := (Sum.inl.inj h).symm
        subst htr
        refine ⟨⟨?_, ?_⟩, List.nodup_singleton _, ?_⟩
        · rw [← ht]
          exact List.mem_cons_self _ _
        · rw [← ht]
          exact hf
        · intro c hc
          rw [List.mem_singleton.mp hc]
          exact hf
      · rw [if_neg ht] at h
        cases hrec : runLevel g rest (v.set index true)
            (acc ++ g.enqueue (v.set index true) index) with
        | inr r =>
          rw [hrec] at h
          exact absurd h (by simp)
        | inl tr2 =>
          rw [hrec] at h
          have htr : tr = index :: tr2 := (Sum.inl.inj h).symm
          subst htr
          obtain ⟨⟨hm, hfr⟩, hnd, hfresh⟩ := ih _ _ _ hrec
          have hsetlen : (v.set index true).length = v.length :=
            List.length_set v index true
          rw [hsetlen] at hm hfr
          refine ⟨⟨List.mem_cons_of_mem _ hm, getD_set_true_false hfr⟩, ?_, ?_⟩
          · refine List.nodup_cons.mpr ⟨?_, hnd⟩
            intro hmem
            have := hfresh index hmem
            rw [getD_set_self hlt true true] at this
            exact Bool.noConfusion this
          · intro c hc
            rcases List.mem_cons.mp hc with hc | hc
            · subst hc
              exact hf
            · exact getD_set_true_false (hfresh c hc)

/-- Enqueue completeness of a completed level: when an unvisited pending cell
`x` has an admissible neighbor `c` that is not itself pending and not yet
visited, `c` ends up in the next level's list. -/
theorem runLevel_enqueue_complete (g : Grid) :
    ∀ (l : List Nat) (v : List Bool) (acc : List Nat)
      (v' : List Bool) (nx tr : List Nat),
      runLevel g l v acc = Sum.inr (v', nx, tr) →
      ∀ x ∈ l, v.getD x true = false →
      ∀ c, (∃ d : Direction, g.tile_index.dir_to x d = some c) →
        g.data.getD c true = false → c ∉ l → v.getD c true = false →
        c ∈ nx := by
  intro l
  induction l with
  | nil =>
    intro v acc v' nx tr h x hx
    exact absurd hx (List.not_mem_nil _)
  | cons index rest ih =>
    intro v acc v' nx tr h x hx hfx c hdir hdata hcl hvc
    rw [runLevel] at h
    by_cases hv : v.getD index true = true
    · rw [if_pos hv] at h
      have hxr : x ∈ rest := by
        rcases List.mem_cons.mp hx with hx | hx
        · subst hx
          rw [hv] at hfx
          exact absurd hfx (by simp)
        · exact hx
      exact ih v acc v' nx tr h x hxr hfx c hdir hdata
        (fun hc => hcl (List.mem_cons_of_mem _ hc)) hvc
    · have hf : v.getD index true = false := by
        cases hb : v.getD index true with
        | false => rfl
        | true => exact absurd hb hv
      have hlt : index < v.length := getD_false_lt hf
      rw [if_neg hv] at h
      by_cases ht : index = v.length - 1
      · rw [if_pos ht] at h
        exact absurd h (by simp)
      · rw [if_neg ht] at h
        cases hrec : runLevel g rest (v.set index true)
            (acc ++ g.enqueue (v.set index true) index) with
        | inl tr2 =>
          rw [hrec] at h
          exact absurd h (by simp)
        | inr r =>
          rw [hrec] at h
          simp only [Sum.inr.injEq, Prod.mk.injEq] at h
          obtain ⟨h1, h2, h3⟩ := h
          subst h1
          subst h2
          have hci : c ≠ index := fun hc => hcl (hc ▸ List.mem_cons_self _ _)
          by_cases hxi : x = index
          · subst hxi
            have hcmem : c ∈ g.enqueue (v.set x true) x := by
              rw [mem_enqueue]
              refine ⟨hdir, ?_, hdata⟩
              rw [getD_set_ne hci]
              exact hvc
            obtain ⟨-, -, -, -, -, -, -, iAcc, -⟩ :=
              runLevel_inr_props g rest (v.set x true)
                (acc ++ g.enqueue (v.set x true) x) r.1 r.2.1 r.2.2 hrec
            exact iAcc c (List.mem_append.mpr (Or.inr hcmem))
          · have hxr : x ∈ rest := by
              rcases List.mem_cons.mp hx with hx | hx
              · exact absurd hx hxi
              · exact hx
            refine ih _ _ _ _ _ hrec x hxr ?_ c hdir hdata
              (fun hc => hcl (List.mem_cons_of_mem _ hc)) ?_
            · rw [getD_set_ne hxi]
              exact hfx
            · rw [getD_set_ne hci]
              exact hvc

/-- Unfolding `stepCountAux` on an empty pending list. -/
theorem stepCountAux_eq_empty (g : Grid) {tv : List Nat} (v : List Bool)
    (k : Nat) (he : tv.isEmpty = true) :
    stepCountAux g tv v k = (none, [], 0) := by
  rw [stepCountAux, dif_pos he]

/-- Unfolding `stepCountAux` when the level finds the target. -/
theorem stepCountAux_eq_found (g : Grid) {tv : List Nat} {v : List Bool}
    (k : Nat) {tr : List Nat} (he : ¬ tv.isEmpty = true)
    (h : runLevel g tv v [] = Sum.inl tr) :
    stepCountAux g tv v k = (some k, tr, 1) := by
  rw [stepCountAux, dif_neg he]
  split
  · rename_i tr2 heq
    rw [h] at heq
    cases Sum.inl.inj heq
    rfl
  · rename_i r heq
    rw [h] at heq
    exact absurd heq (by simp)

/-- Unfolding `stepCountAux` when the level completes without finding the
target. -/
theorem stepCountAux_eq_cont (g : Grid) {tv : List Nat} {v : List Bool}
    (k : Nat) {r : List Bool × List Nat × List Nat} (he : ¬ tv.isEmpty = true)
    (h : runLevel g tv v [] = Sum.inr r) :
    stepCountAux g tv v k =
      ((stepCountAux g r.2.1 r.1 (k + 1)).1,
        r.2.2 ++ (stepCountAux g r.2.1 r.1 (k + 1)).2.1,
        (stepCountAux g r.2.1 r.1 (k + 1)).2.2 + 1) := by
  rw [stepCountAux, dif_neg he]
  split
  · rename_i tr heq
    rw [h] at heq
    exact absurd heq (by simp)
  · rename_i r2 heq
    rw [h] at heq
    cases Sum.inr.inj heq
    rfl

/-- A walk of length zero is still at the start cell. -/
theorem reachesIn_zero {g : Grid} {c : Nat} (h : g.ReachesIn c 0) : c = 0 := by
  cases h
  rfl

/-- The loop invariant of `Grid::step_count` at the start of level `count`:
the visited flags are sized to the grid and hold exactly the cells whose
walk distance is below `count`; every pending cell has distance at most
`count`; every cell of distance at most `count` is visited or pending; and the
target has not been reached below `count`. -/
def BfsInv (g : Grid) (k : Nat) (to_visit : List Nat)
    (visited : List Bool) : Prop :=
  visited.length = g.data.length
  ∧ (∀ c, c < g.data.length →
      (visited.getD c true = true ↔ ∃ j, j < k ∧ g.ReachesIn c j))
  ∧ (∀ x ∈ to_visit, ∃ j, j ≤ k ∧ g.ReachesIn x j)
  ∧ (∀ c, (∃ j, j ≤ k ∧ g.ReachesIn c j) →
      visited.getD c true = true ∨ c ∈ to_visit)
  ∧ (∀ j, j < k → ¬ g.ReachesIn (g.data.length - 1) j)

/-- The invariant holds initially: level 0, frontier `[0]`, nothing visited. -/
theorem bfsInv_init (g : Grid) (_hn : 0 < g.data.length) :
    BfsInv g 0 [0] (List.replicate g.data.length false) := by
  refine ⟨List.length_replicate _ _, ?_, ?_, ?_, ?_⟩
  · intro c hc
    rw [getD_replicate_false hc]
    constructor
    · intro h
      exact absurd h (by simp)
    · rintro ⟨j, hj, -⟩
      omega
  · intro x hx
    rw [List.mem_singleton.mp hx]
    exact ⟨0, Nat.le_refl _, ReachesIn.start⟩
  · rintro c ⟨j, hj, hrj⟩
    have hj0 : j = 0 := by omega
    subst hj0
    rw [reachesIn_zero hrj]
    exact Or.inr (List.mem_singleton.mpr rfl)
  · intro j hj
    omega

/-- Partial correctness of the `while` loop of `Grid::step_count`: from any
state satisfying the invariant, the loop's result is `some d` exactly when
`d` is the minimal walk length from cell 0 to the target, and `none` exactly
when no walk reaches the target. -/
theorem stepCountAux_correct (g : Grid) (hw : 0 < g.tile_index.width)
    (hh : 0 < g.tile_index.height)
    (hlen : g.data.length = g.tile_index.width * g.tile_index.height) :
    ∀ (to_visit : List Nat) (visited : List Bool) (k : Nat),
      BfsInv g k to_visit visited →
      ((∀ d, ((stepCountAux g to_visit visited k).1 = some d ↔
          (g.ReachesIn (g.data.length - 1) d
            ∧ ∀ j, j < d → ¬ g.ReachesIn (g.data.length - 1) j)))
        ∧ ((stepCountAux g to_visit visited k).1 = none ↔
          ∀ j, ¬ g.ReachesIn (g.data.length - 1) j)) := by
  have hn : 0 < g.data.length := by
    rw [hlen]
    exact Nat.mul_pos hw hh
  have htlt : g.data.length - 1 < g.data.length := by omega
  intro tv v k
  induction tv, v, k using stepCountAux.induct g with
  | case1 tv v k he =>
    rintro ⟨hL, hVis, hFr, hCmp, hTgt⟩
    have htv : tv = [] := List.isEmpty_iff.mp he
    subst htv
    have hnone : (stepCountAux g [] v k).1 = none := by
      rw [stepCountAux_eq_empty g v k List.isEmpty_nil]
    have hvisited : ∀ m c, g.ReachesIn c m → v.getD c true = true := by
      intro m
      induction m using Nat.strong_induction_on with
      | _ m ihm =>
        intro c hc
        cases hc with
        | start =>
          rcases hCmp 0 ⟨0, Nat.zero_le _, ReachesIn.start⟩ with hv0 | hv0
          · exact hv0
          · exact absurd hv0 (List.not_mem_nil _)
        | step hx hs =>
          rename_i x m'
          have hvx := ihm m' (by omega) x hx
          have hxlt : x < g.data.length := hx.lt_length hw hh hlen
          obtain ⟨jx, hjx, hrx⟩ := (hVis x hxlt).mp hvx
          rcases hCmp c ⟨jx + 1, by omega, hrx.step hs⟩ with hvc | hvc
          · exact hvc
          · exact absurd hvc (List.not_mem_nil _)
    have hunreach : ∀ j, ¬ g.ReachesIn (g.data.length - 1) j := by
      intro j hr
      obtain ⟨j2, hj2, hr2⟩ := (hVis _ htlt).mp (hvisited j _ hr)
      exact hTgt j2 hj2 hr2
    refine ⟨?_, ?_⟩
    · intro d
      rw [hnone]
      constructor
      · intro hx
        exact absurd hx (by simp)
      · rintro ⟨hr, -⟩
        exact absurd hr (hunreach d)
    · rw [hnone]
      exact ⟨fun _ => hunreach, fun _ => rfl⟩
  | case2 tv v k he tr hr =>
    rintro ⟨hL, hVis, hFr, hCmp, hTgt⟩
    have hsome : (stepCountAux g tv v k).1 = some k := by
      rw [stepCountAux_eq_found g k he hr]
    obtain ⟨⟨hmem, hfr⟩, -, -⟩ := runLevel_inl_props g tv v [] tr hr
    rw [hL] at hmem hfr
    obtain ⟨jt, hjt, hrt⟩ := hFr _ hmem
    have hjtk : jt = k := by
      rcases Nat.lt_or_ge jt k with hcase | hcase
      · exact absurd hrt (hTgt jt hcase)
      · omega
    subst hjtk
    refine ⟨?_, ?_⟩
    · intro d
      rw [hsome]
      constructor
      · intro hd
        cases Option.some.inj hd
        exact ⟨hrt, hTgt⟩
      · rintro ⟨hrd, hmind⟩
        rcases Nat.lt_trichotomy d jt with hc | hc | hc
        · exact absurd hrd (hTgt d hc)
        · rw [hc]
        · exact absurd hrt (hmind jt hc)
    · rw [hsome]
      constructor
      · intro hx
        exact absurd hx (by simp)
      · intro hall
        exact absurd hrt (hall jt)
  | case3 tv v k he r hr ih =>
    rintro ⟨hL, hVis, hFr, hCmp, hTgt⟩
    have hfst : (stepCountAux g tv v k).1
        = (stepCountAux g r.2.1 r.1 (k + 1)).1 := by
      rw [stepCountAux_eq_cont g k he hr]
    obtain ⟨iL, iMono, iPop, iIff, iSub, iNd, iNext, iAcc, iTgt⟩ :=
      runLevel_inr_props g tv v [] r.1 r.2.1 r.2.2 hr
    have hnotk : ¬ g.ReachesIn (g.data.length - 1) k := by
      intro hrk
      rcases hCmp _ ⟨k, Nat.le_refl _, hrk⟩ with hvt | htv
      · obtain ⟨j2, hj2, hr2⟩ := (hVis _ htlt).mp hvt
        exact hTgt j2 hj2 hr2
      · have := iTgt (by rw [hL]; exact htv)
        rw [hL] at this
        obtain ⟨j2, hj2, hr2⟩ := (hVis _ htlt).mp this
        exact hTgt j2 hj2 hr2
    have hTgt2 : ∀ j, j < k + 1 → ¬ g.ReachesIn (g.data.length - 1) j := by
      intro j hj
      by_cases hjk : j = k
      · rw [hjk]
        exact hnotk
      · exact hTgt j (by omega)
    have hL2 : r.1.length = g.data.length := by rw [iL, hL]
    have hVis2 : ∀ c, c < g.data.length →
        (r.1.getD c true = true ↔ ∃ j, j < k + 1 ∧ g.ReachesIn c j) := by
      intro c hc
      rw [iIff c]
      constructor
      · rintro (hvc | htr)
        · obtain ⟨j, hj, hrj⟩ := (hVis c hc).mp hvc
          exact ⟨j, by omega, hrj⟩
        · obtain ⟨hmem, -⟩ := iSub c htr
          obtain ⟨j, hj, hrj⟩ := hFr c hmem
          exact ⟨j, by omega, hrj⟩
      · rintro ⟨j, hj, hrj⟩
        by_cases hjk : j < k
        · exact Or.inl ((hVis c hc).mpr ⟨j, hjk, hrj⟩)
        · have hjk2 : j = k := by omega
          subst hjk2
          rcases hCmp c ⟨j, Nat.le_refl _, hrj⟩ with hvc | htv
          · exact Or.inl hvc
          · exact (iIff c).mp (iPop c htv)
    have hFr2 : ∀ x ∈ r.2.1, ∃ j, j ≤ k + 1 ∧ g.ReachesIn x j := by
      intro x hx
      rcases iNext x hx with hx | ⟨i, w, hi, hw⟩
      · exact absurd hx (List.not_mem_nil _)
      · obtain ⟨ji, hji, hri⟩ := hFr i hi
        rw [mem_enqueue] at hw
        obtain ⟨hdir, -, hdata⟩ := hw
        exact ⟨ji + 1, by omega, hri.step ⟨hdir, hdata⟩⟩
    have hCmp2 : ∀ c, (∃ j, j ≤ k + 1 ∧ g.ReachesIn c j) →
        r.1.getD c true = true ∨ c ∈ r.2.1 := by
      rintro c ⟨j, hj, hrj⟩
      by_cases hjk : j ≤ k
      · rcases hCmp c ⟨j, hjk, hrj⟩ with hvc | htv
        · exact Or.inl (iMono c hvc)
        · exact Or.inl (iPop c htv)
      · have hj1 : j = k + 1 := by omega
        subst hj1
        by_cases hck : ∃ j2, j2 ≤ k ∧ g.ReachesIn c j2
        · rcases hCmp c hck with hvc | htv
          · exact Or.inl (iMono c hvc)
          · exact Or.inl (iPop c htv)
        · push_neg at hck
          have hclt : c < g.data.length := hrj.lt_length hw hh hlen
          cases hrj with
          | step hx hs =>
            rename_i x
            have hxlt : x < g.data.length := hx.lt_length hw hh hlen
            have hxfresh : v.getD x true = false := by
              cases hb : v.getD x true with
              | false => rfl
              | true =>
                obtain ⟨j2, hj2, hr2⟩ := (hVis x hxlt).mp hb
                exact absurd (hr2.step hs) (hck (j2 + 1) (by omega))
            have hxtv : x ∈ tv := by
              rcases hCmp x ⟨k, Nat.le_refl _, hx⟩ with hvx | htvx
              · rw [hvx] at hxfresh
                exact absurd hxfresh (by simp)
              · exact htvx
            have hcfresh : v.getD c true = false := by
              cases hb : v.getD c true with
              | false => rfl
              | true =>
                obtain ⟨j2, hj2, hr2⟩ := (hVis c hclt).mp hb
                exact absurd hr2 (hck j2 (by omega))
            have hctv : c ∉ tv := by
              intro hc
              obtain ⟨j2, hj2, hr2⟩ := hFr c hc
              exact hck j2 hj2 hr2
            exact Or.inr (runLevel_enqueue_complete g tv v [] r.1 r.2.1 r.2.2
              hr x hxtv hxfresh c hs.1 hs.2 hctv hcfresh)
    have hconc := ih ⟨hL2, hVis2, hFr2, hCmp2, hTgt2⟩
    refine ⟨?_, ?_⟩
    · intro d
      rw [hfst]
      exact hconc.1 d
    · rw [hfst]
      exact hconc.2

end Grid

/-- C2 (amended): `step_count` returns `some d` exactly when `d` is the
minimum number of orthogonal unit moves of a walk from the start cell 0 to
the target cell (the last index) in which every move enters an unmarked cell
— the start cell's own mark is ignored, since the code seeds the frontier
with cell 0 unconditionally — and `none` exactly when no such walk reaches
the target. The only distance `step_count` reports is the target's, and the
unreachable case is reported by absence (`none`), not by a sentinel. -/
theorem claim_C2 (g : Grid) (hw : 0 < g.tile_index.width)
    (hh : 0 < g.tile_index.height)
    (hlen : g.data.length = g.tile_index.width * g.tile_index.height) :
    (∀ d, (g.step_count = some d ↔
      (g.ReachesIn (g.data.length - 1) d
        ∧ ∀ j, j < d → ¬ g.ReachesIn (g.data.length - 1) j)))
    ∧ (g.step_count = none ↔ ∀ j, ¬ g.ReachesIn (g.data.length - 1) j) := by
  have hn : 0 < g.data.length := by
    rw [hlen]
    exact Nat.mul_pos hw hh
  exact Grid.stepCountAux_correct g hw hh hlen [0]
    (List.replicate g.data.length false) 0 (Grid.bfsInv_init g hn)

/-- The 2 × 2 grid with no obstacles, for the C2 witness. -/
def gridFree2 : Grid :=
  { data := [false, false, false, false],
    tile_index := { width := 2, height := 2 } }

/-- Witness for C2 on the obstacle-free 2 × 2 grid. -/
theorem claim_C2_witness :
    (0 < gridFree2.tile_index.width ∧ 0 < gridFree2.tile_index.height
      ∧ gridFree2.data.length
        = gridFree2.tile_index.width * gridFree2.tile_index.height)
    ∧ ((∀ d, (gridFree2.step_count = some d ↔
        (gridFree2.ReachesIn (gridFree2.data.length - 1) d
          ∧ ∀ j, j < d → ¬ gridFree2.ReachesIn (gridFree2.data.length - 1) j)))
      ∧ (gridFree2.step_count = none ↔
        ∀ j, ¬ gridFree2.ReachesIn (gridFree2.data.length - 1) j)) :=
  ⟨⟨by decide, by decide, by decide⟩,
    claim_C2 gridFree2 (by decide) (by decide) (by decide)⟩

/-- The 2 × 2 grid whose start cell is itself a marked obstacle: the C2
counterexample. -/
def gridBlockedStart : Grid :=
  { data := [true, false, false, false],
    tile_index := { width := 2, height := 2 } }

/-- On a grid whose start cell is marked, no walk satisfies the claim's
strict reading (all cells unmarked, the start included). -/
theorem specReachesIn_gridBlockedStart {c k : Nat} :
    ¬ Grid.SpecReachesIn gridBlockedStart c k := by
  intro h
  induction h with
  | start h0 => exact absurd h0 (by decide)
  | step _ _ ih => exact ih

/-- Counterexample to C2 as stated: with the start cell itself marked, no
walk from start to target passes only through unmarked cells — so the claim
as stated demands `None` — yet `step_count` returns `Some 2`. -/
theorem claim_C2_counterexample :
    gridBlockedStart.step_count = some 2
    ∧ ∀ k, ¬ Grid.SpecReachesIn gridBlockedStart (2 * 2 - 1) k := by
  constructor
  · have h0 : Grid.runLevel gridBlockedStart [0] (List.replicate 4 false) []
        = Sum.inr ([true, false, false, false], [1, 2], [0]) := by rfl
    have h1 : Grid.runLevel gridBlockedStart [1, 2]
          [true, false, false, false] []
        = Sum.inr ([true, true, true, false], [3, 3], [1, 2]) := by rfl
    have h2 : Grid.runLevel gridBlockedStart [3, 3]
          [true, true, true, false] [] = Sum.inl [3] := by rfl
    show (Grid.stepCountAux gridBlockedStart [0]
      (List.replicate 4 false) 0).1 = some 2
    rw [Grid.stepCountAux_eq_cont gridBlockedStart 0 (by simp) h0]
    show (Grid.stepCountAux gridBlockedStart [1, 2]
      [true, false, false, false] 1).1 = some 2
    rw [Grid.stepCountAux_eq_cont gridBlockedStart 1 (by simp) h1]
    show (Grid.stepCountAux gridBlockedStart [3, 3]
      [true, true, true, false] 2).1 = some 2
    rw [Grid.stepCountAux_eq_found gridBlockedStart 2 (by simp) h2]
  · intro k
    exact specReachesIn_gridBlockedStart

namespace Grid

/-- The whole-call processed trace of `step_count`'s loop is duplicate-free,
and every processed cell was unvisited when the call began. -/
theorem stepCountAux_trace (g : Grid) :
    ∀ (tv : List Nat) (v : List Bool) (k : Nat),
      (stepCountAux g tv v k).2.1.Nodup
        ∧ ∀ c ∈ (stepCountAux g tv v k).2.1, v.getD c true = false := by
  intro tv v k
  induction tv, v, k using stepCountAux.induct g with
  | case1 tv v k he =>
    rw [stepCountAux_eq_empty g v k he]
    simp
  | case2 tv v k he tr hr =>
    rw [stepCountAux_eq_found g k he hr]
    obtain ⟨-, hnd, hfresh⟩ := runLevel_inl_props g tv v [] tr hr
    exact ⟨hnd, hfresh⟩
  | case3 tv v k he r hr ih =>
    rw [stepCountAux_eq_cont g k he hr]
    obtain ⟨iL, iMono, iPop, iIff, iSub, iNd, iNext, iAcc, iTgt⟩ :=
      runLevel_inr_props g tv v [] r.1 r.2.1 r.2.2 hr
    obtain ⟨ihnd, ihfresh⟩ := ih
    constructor
    · refine List.Nodup.append iNd ihnd ?_
      intro a ha hb
      have hfa := ihfresh a hb
      have : r.1.getD a true = true := (iIff a).mpr (Or.inr ha)
      rw [this] at hfa
      exact Bool.noConfusion hfa
    · intro c hc
      rcases List.mem_append.mp hc with hc | hc
      · exact (iSub c hc).2
      · have hf := ihfresh c hc
        cases hb : v.getD c true with
        | false => rfl
        | true =>
          rw [iMono c hb] at hf
          exact Bool.noConfusion hf

/-- The BFS loop enters at most `unvisited + 1` levels. -/
theorem stepCountAux_levels (g : Grid) :
    ∀ (tv : List Nat) (v : List Bool) (k : Nat),
      (stepCountAux g tv v k).2.2 ≤ unvisitedCount v + 1 := by
  intro tv v k
  induction tv, v, k using stepCountAux.induct g with
  | case1 tv v k he =>
    rw [stepCountAux_eq_empty g v k he]
    show 0 ≤ unvisitedCount v + 1
    omega
  | case2 tv v k he tr hr =>
    rw [stepCountAux_eq_found g k he hr]
    show 1 ≤ unvisitedCount v + 1
    omega
  | case3 tv v k he r hr ih =>
    rw [stepCountAux_eq_cont g k he hr]
    show (stepCountAux g r.2.1 r.1 (k + 1)).2.2 + 1 ≤ unvisitedCount v + 1
    obtain ⟨hle, heq⟩ := runLevel_unvisited g tv v [] r.1 r.2.1 r.2.2 (by rw [hr])
    rcases Nat.lt_or_ge (unvisitedCount r.1) (unvisitedCount v) with hlt | hge
    · omega
    · obtain ⟨-, hnx⟩ := heq (Nat.le_antisymm hle hge)
      have hz : (stepCountAux g r.2.1 r.1 (k + 1)).2.2 = 0 := by
        rw [hnx, stepCountAux_eq_empty g r.1 (k + 1) List.isEmpty_nil]
      omega

end Grid

/-- The day-10 neighbor list never exceeds four cells. -/
theorem FieldMap.neighbors_length_le (f : FieldMap) (i : Nat) :
    (f.neighbors i).length ≤ 4 := by
  have hd : (f.directional_neighbors i).length ≤ 4 := by
    unfold FieldMap.directional_neighbors
    have h1 : ∀ o : Option Nat, o.toList.length ≤ 1 := by
      intro o
      cases o <;> simp
    have := h1 (f.tiles.left i)
    have := h1 (f.tiles.right i)
    have := h1 (f.tiles.up i)
    have := h1 (f.tiles.down i)
    simp only [List.length_append]
    omega
  calc (f.neighbors i).length
      ≤ (f.directional_neighbors i).length := List.length_filter_le _ _
    _ ≤ 4 := hd

/-- C3: in both traversals a cell is marked visited at the moment it is first
popped and processed, never at enqueue time. For the DFS loop: the processed
trace is duplicate-free (each cell's body runs at most once per call), every
processed cell was unvisited at call start, and the final visited flags are
exactly the initial ones plus the processed cells — so flags only ever go
from unvisited to visited, and `Visited` is terminal. For the BFS of
`step_count`: each completed level's updated flags are exactly the previous
flags plus the cells processed in that level, and the whole-call processed
trace is duplicate-free and fresh. -/
theorem claim_C3 :
    (∀ (nbrs : Nat → List Nat) (l : List Nat) (v : List Bool),
      (dfsLoop nbrs l v).2.2.Nodup
      ∧ (∀ c ∈ (dfsLoop nbrs l v).2.2, v.getD c true = false)
      ∧ (∀ c, (dfsLoop nbrs l v).1.getD c true = true ↔
          (v.getD c true = true ∨ c ∈ (dfsLoop nbrs l v).2.2)))
    ∧ (∀ (g : Grid) (l : List Nat) (v : List Bool) (acc : List Nat)
        (v' : List Bool) (nx tr : List Nat),
        Grid.runLevel g l v acc = Sum.inr (v', nx, tr) →
        ∀ c, (v'.getD c true = true ↔ (v.getD c true = true ∨ c ∈ tr)))
    ∧ (∀ (g : Grid) (tv : List Nat) (v : List Bool) (k : Nat),
      (Grid.stepCountAux g tv v k).2.1.Nodup
      ∧ ∀ c ∈ (Grid.stepCountAux g tv v k).2.1, v.getD c true = false) := by
  refine ⟨?_, ?_, ?_⟩
  · intro nbrs l v
    obtain ⟨hnd, hfresh⟩ := dfsLoop_trace_nodup_fresh nbrs l v
    exact ⟨hnd, hfresh, dfsLoop_visited_iff nbrs l v⟩
  · intro g l v acc v' nx tr h
    exact (Grid.runLevel_inr_props g l v acc v' nx tr h).2.2.2.1
  · intro g tv v k
    exact Grid.stepCountAux_trace g tv v k

/-- Witness for C3's level-marking discipline on the free 2 × 2 grid. -/
theorem claim_C3_witness :
    (Grid.runLevel gridFree2 [0] (List.replicate 4 false) []
      = Sum.inr ([true, false, false, false], [1, 2], [0]))
    ∧ ∀ c, (([true, false, false, false] : List Bool).getD c true = true ↔
        ((List.replicate 4 false).getD c true = true
          ∨ c ∈ ([0] : List Nat))) := by
  have h : Grid.runLevel gridFree2 [0] (List.replicate 4 false) []
      = Sum.inr ([true, false, false, false], [1, 2], [0]) := by rfl
  exact ⟨h, claim_C3.2.1 gridFree2 [0] (List.replicate 4 false) []
    [true, false, false, false] [1, 2] [0] h⟩

/-- C8: both traversal loops terminate after a number of iterations bounded
by the inputs and the grid size (the Lean embeddings are total functions,
accepted by well-founded recursion). The DFS loop runs at most
`|stack| + 4 · unvisited` iterations — for day 10's neighbor function and,
generally, for any neighbor function producing at most four neighbors — and
the BFS loop of `step_count` enters at most `unvisited + 1` levels. -/
theorem claim_C8 :
    (∀ (f : FieldMap) (l : List Nat) (v : List Bool),
      (dfsLoop f.neighbors l v).2.1 ≤ l.length + 4 * unvisitedCount v)
    ∧ (∀ nbrs : Nat → List Nat, (∀ i, (nbrs i).length ≤ 4) →
      ∀ (l : List Nat) (v : List Bool),
        (dfsLoop nbrs l v).2.1 ≤ l.length + 4 * unvisitedCount v)
    ∧ ∀ (g : Grid) (tv : List Nat) (v : List Bool) (k : Nat),
      (Grid.stepCountAux g tv v k).2.2 ≤ unvisitedCount v + 1 := by
  refine ⟨?_, ?_, ?_⟩
  · intro f l v
    exact dfsLoop_steps_le f.neighbors f.neighbors_length_le l v
  · intro nbrs hb l v
    exact dfsLoop_steps_le nbrs hb l v
  · intro g tv v k
    exact Grid.stepCountAux_levels g tv v k

/-- Witness for C8's generic DFS bound at a concrete neighbor function. -/
theorem claim_C8_witness :
    (∀ i : Nat, (([] : List Nat)).length ≤ 4)
    ∧ (dfsLoop (fun _ => ([] : List Nat)) [0] [false]).2.1
        ≤ ([0] : List Nat).length + 4 * unvisitedCount [false] :=
  ⟨fun _ => by simp,
    claim_C8.2.1 (fun _ => []) (fun _ => by simp) [0] [false]⟩
